import Mathlib

/-!
Verification of the geotiler map core (`geotiler/map.py`).

The Python source is shallowly embedded over exact rational arithmetic:
Python floats are modelled as `ℚ` (the spec reasons in exact real
arithmetic; all inputs appearing in the verified statements are dyadic,
so every operation of the source is exact here), Python ints as `ℤ`,
and `math.ceil(math.log(x) / math.log(2))` as `Int.clog 2 x`, which is
exactly `⌈logb 2 x⌉` for positive `x`.  Fallible Python code (raising
exceptions) is modelled with `Except PyError`.

The `Core.Coordinate` class and the `TileRequest` record are imported by
`map.py` from modules that are not part of the sources under review;
they are modelled from the spec (§3, §4.1), as marked on each definition.
-/

/-- Python exceptions that the embedded code can raise: `ValueError`
(raised by `math.log` on a non-positive argument and by `min`/`max` on an
empty sequence), `ZeroDivisionError` (float division by zero), and
`TypeError` (passing `None` where an object is required). -/
inductive PyError where
  | valueError
  | zeroDivisionError
  | typeError
deriving DecidableEq, Repr

/-- Python 3 `round`: round half to even (banker's rounding). -/
def pyRound (q : ℚ) : ℤ :=
  let f := ⌊q⌋
  let r := q - f
  if r < 1/2 then f
  else if 1/2 < r then f + 1
  else if f % 2 = 0 then f else f + 1

/-- Python `int()` on a float: truncation toward zero. -/
def pyInt (q : ℚ) : ℤ :=
  if 0 ≤ q then ⌊q⌋ else ⌈q⌉

/-- A 2D point (`shapely.geometry.Point`): used by the source both for
geographic locations and for pixel positions. -/
structure Point where
  x : ℚ
  y : ℚ
deriving DecidableEq, Repr

/-- Modelled from the spec: `Core.Coordinate` (spec §3, §4.1), a node of
the power-of-two tile pyramid `{row, column, zoom}`.  Row and column may
be fractional.  The source stores `zoom` as a float; it is modelled as an
integer, which covers every zoom level reachable in the verified
statements and keeps the powers of two of `zoomTo` exact. -/
structure Coordinate where
  row : ℚ
  column : ℚ
  zoom : ℤ
deriving DecidableEq, Repr

/-- Modelled from the spec (§4.1): a fixed high zoom level used as the
internal precision for pixel-to-location conversions. -/
def MAX_ZOOM : ℤ := 26

/-- Modelled from the spec (§4.1): rescale row and column by
`2 ^ (destination - zoom)` and set the zoom to `destination`. -/
def Coordinate.zoomTo (c : Coordinate) (destination : ℤ) : Coordinate :=
  ⟨c.row * 2 ^ (destination - c.zoom), c.column * 2 ^ (destination - c.zoom), destination⟩

/-- Modelled from the spec (§4.1): the integral tile containing this
coordinate — row and column floored, zoom unchanged. -/
def Coordinate.container (c : Coordinate) : Coordinate :=
  ⟨(⌊c.row⌋ : ℚ), (⌊c.column⌋ : ℚ), c.zoom⟩

/-- Modelled from the spec (§4.1): neighbor tile one column to the left. -/
def Coordinate.left (c : Coordinate) : Coordinate :=
  ⟨c.row, c.column - 1, c.zoom⟩

/-- Modelled from the spec (§4.1): neighbor tile one column to the right. -/
def Coordinate.right (c : Coordinate) : Coordinate :=
  ⟨c.row, c.column + 1, c.zoom⟩

/-- Modelled from the spec (§4.1): neighbor tile one row up. -/
def Coordinate.up (c : Coordinate) : Coordinate :=
  ⟨c.row - 1, c.column, c.zoom⟩

/-- Modelled from the spec (§4.1): neighbor tile one row down. -/
def Coordinate.down (c : Coordinate) : Coordinate :=
  ⟨c.row + 1, c.column, c.zoom⟩

/-- Modelled from the spec (§3, §6): the external Provider capability.
Tile pixel dimensions are positive integers; `locationCoordinate`
projects a geographic location to a tile coordinate at the provider's
fixed native zoom `pzoom` (spec §3: "at some fixed provider zoom, then
rescaled by caller"), and `coordinateLocation` is the inverse
projection. -/
structure Provider where
  tile_width : ℕ
  tile_height : ℕ
  pzoom : ℤ
  project : Point → ℚ × ℚ
  coordinateLocation : Coordinate → Point

/-- Modelled from the spec (§3): project a location to a tile coordinate
at the provider's fixed native zoom. -/
def Provider.locationCoordinate (P : Provider) (location : Point) : Coordinate :=
  ⟨(P.project location).1, (P.project location).2, P.pzoom⟩

/-- Embedding of `calculateMapCenter` (map.py:275): the container tile of
the center coordinate, and the rounded pixel offset of that tile's corner
relative to the center. -/
def calculateMapCenter (provider : Provider) (centerCoord : Coordinate) :
    Coordinate × Point :=
  let initTileCoord := centerCoord.container
  let initX := (initTileCoord.column - centerCoord.column) * provider.tile_width
  let initY := (initTileCoord.row - centerCoord.row) * provider.tile_height
  (initTileCoord, ⟨(pyRound initX : ℚ), (pyRound initY : ℚ)⟩)

/-- Python `min` over a nonempty list (the empty case is unreachable: the
caller raises `ValueError` before applying it, see `calculateMapExtent`). -/
def listMin {α : Type} [LinearOrder α] [Inhabited α] : List α → α
  | [] => default
  | x :: xs => xs.foldl min x

/-- Python `max` over a nonempty list (empty case unreachable, as in
`listMin`). -/
def listMax {α : Type} [LinearOrder α] [Inhabited α] : List α → α
  | [] => default
  | x :: xs => xs.foldl max x

/-- Body of `calculateMapExtent` (map.py:304-335) after the bounding box
`TL`/`BR` has been computed.  The error branches mirror the Python
failure points in evaluation order: the horizontal factor's division
(`ZeroDivisionError`), the horizontal `math.log` (`ValueError` on a
non-positive argument), then the same two for the vertical axis.
`Int.clog 2` embeds `math.ceil(math.log x / math.log 2)` exactly.
The halved zoom sum for the center is taken over `ℤ`; it is exact
because both corner coordinates carry the provider's fixed zoom. -/
def calcExtentCore (provider : Provider) (width height : ℤ) (TL BR : Coordinate) :
    Except PyError (Coordinate × Point) :=
  if (width : ℚ) / provider.tile_width = 0 then .error .zeroDivisionError
  else if (BR.column - TL.column) / ((width : ℚ) / provider.tile_width) ≤ 0 then
    .error .valueError
  else if (height : ℚ) / provider.tile_height = 0 then .error .zeroDivisionError
  else if (BR.row - TL.row) / ((height : ℚ) / provider.tile_height) ≤ 0 then
    .error .valueError
  else
    let hPossibleZoom :=
      TL.zoom - Int.clog 2 ((BR.column - TL.column) / ((width : ℚ) / provider.tile_width))
    let vPossibleZoom :=
      TL.zoom - Int.clog 2 ((BR.row - TL.row) / ((height : ℚ) / provider.tile_height))
    let initZoom := min hPossibleZoom vPossibleZoom
    let centerRow := (TL.row + BR.row) / 2
    let centerColumn := (TL.column + BR.column) / 2
    let centerZoom := (TL.zoom + BR.zoom) / 2
    .ok (calculateMapCenter provider
      (Coordinate.zoomTo ⟨centerRow, centerColumn, centerZoom⟩ initZoom))

/-- Embedding of `calculateMapExtent` (map.py:289): project all corner
locations, build the per-axis bounding box with independent `min`/`max`,
choose the coarser of the two per-axis possible zooms, and delegate the
rescaled extent center to `calculateMapCenter`.  An empty location list
makes Python's `min` raise `ValueError`. -/
def calculateMapExtent (provider : Provider) (width height : ℤ) (args : List Point) :
    Except PyError (Coordinate × Point) :=
  match args with
  | [] => .error .valueError
  | a :: rest =>
    let coordinates := (a :: rest).map provider.locationCoordinate
    calcExtentCore provider width height
      ⟨listMin (coordinates.map Coordinate.row),
       listMin (coordinates.map Coordinate.column),
       listMin (coordinates.map Coordinate.zoom)⟩
      ⟨listMax (coordinates.map Coordinate.row),
       listMax (coordinates.map Coordinate.column),
       listMax (coordinates.map Coordinate.zoom)⟩

/-- State of a `Map` instance (map.py:34): the provider, the derived
reference tile and its offset, and the primary fields `_extent`,
`_center`, `_zoom`, `_size`.  `_center` is declared `Option` because
`Map.__init__` stores `None` in it. -/
structure MapState where
  provider : Provider
  coordinate : Coordinate
  offset : Point
  extent : ℚ × ℚ × ℚ × ℚ
  center : Option Point
  zoom : ℤ
  size : ℤ × ℤ

/-- Embedding of `Map.__init__` together with `Map._on_change_extent_zoom`
(map.py:53-75, 158-183): project the two extent corners at the requested
zoom, derive the pixel size from the corner spans (truncated with
`int()`), average the corners for the projected center and delegate to
`calculateMapCenter`.  `_center` is left `None`, exactly as in the
source (the `assert` on it is commented out there). -/
def mapInit (provider : Provider) (extent : ℚ × ℚ × ℚ × ℚ) (zoom : ℤ) : MapState :=
  let (x1, y1, x2, y2) := extent
  let coord_a := (provider.locationCoordinate ⟨x1, y1⟩).zoomTo zoom
  let coord_b := (provider.locationCoordinate ⟨x2, y2⟩).zoomTo zoom
  let width := |coord_a.column - coord_b.column| * provider.tile_width
  let height := |coord_a.row - coord_b.row| * provider.tile_height
  let center_coord : Coordinate :=
    ⟨(coord_a.row + coord_b.row) / 2, (coord_a.column + coord_b.column) / 2, zoom⟩
  let mc := calculateMapCenter provider center_coord
  { provider := provider
    coordinate := mc.1
    offset := mc.2
    extent := extent
    center := none
    zoom := zoom
    size := (pyInt width, pyInt height) }

/-- Embedding of `Map.locationPoint` (map.py:190): pixel position of a
geographic location on the map image. -/
def locationPoint (m : MapState) (location : Point) : Point :=
  let coord := (m.provider.locationCoordinate location).zoomTo m.coordinate.zoom
  let px := m.offset.x + m.provider.tile_width * (coord.column - m.coordinate.column)
  let py := m.offset.y + m.provider.tile_height * (coord.row - m.coordinate.row)
  ⟨px + (m.size.1 : ℚ) / 2, py + (m.size.2 : ℚ) / 2⟩

/-- Embedding of `Map.pointLocation` (map.py:208): geographic location of
a pixel position, rounding the reconstructed coordinate at `MAX_ZOOM`
before rescaling back to the view's zoom. -/
def pointLocation (m : MapState) (point : Point) : Point :=
  let hizoomCoord := m.coordinate.zoomTo MAX_ZOOM
  let px := point.x - (m.size.1 : ℚ) / 2
  let py := point.y - (m.size.2 : ℚ) / 2
  let xTiles := (px - m.offset.x) / m.provider.tile_width
  let yTiles := (py - m.offset.y) / m.provider.tile_height
  let xDistance := xTiles * 2 ^ (MAX_ZOOM - m.coordinate.zoom)
  let yDistance := yTiles * (2 : ℚ) ^ (MAX_ZOOM - m.coordinate.zoom)
  let coord : Coordinate :=
    ⟨(pyRound (hizoomCoord.row + yDistance) : ℚ),
     (pyRound (hizoomCoord.column + xDistance) : ℚ), MAX_ZOOM⟩
  m.provider.coordinateLocation (coord.zoomTo m.coordinate.zoom)

/-- Embedding of the `Map.extent` setter (map.py:86-89, 136-145): the
`_extent` field is assigned first, then `_on_change_extent` recomputes
the reference tile and offset from the current size.  The pair holds the
object state after the call together with the exception, if one
propagated out of `_on_change_extent`; on failure the `_extent` field
keeps its freshly assigned value. -/
def set_extent (m : MapState) (extent : ℚ × ℚ × ℚ × ℚ) : MapState × Option PyError :=
  let m1 := { m with extent := extent }
  let (x1, y1, x2, y2) := extent
  match calculateMapExtent m1.provider m1.size.1 m1.size.2 [⟨x1, y1⟩, ⟨x2, y2⟩] with
  | .error e => (m1, some e)
  | .ok (mc, mo) => ({ m1 with coordinate := mc, offset := mo }, none)

/-- Embedding of the `Map.zoom` setter (map.py:102-105, 126-133): the
`_zoom` field is assigned first, then `_on_change_zoom` projects
`self._center` at the new zoom.  When `_center` is `None` — which is how
`__init__` leaves it — the provider projection receives `None` and a
`TypeError` propagates, with `_zoom` already holding the new value. -/
def set_zoom (m : MapState) (zoom : ℤ) : MapState × Option PyError :=
  let m1 := { m with zoom := zoom }
  match m1.center with
  | none => (m1, some .typeError)
  | some ctr =>
    let center_coord := (m1.provider.locationCoordinate ctr).zoomTo zoom
    let mc := calculateMapCenter m1.provider center_coord
    ({ m1 with coordinate := mc.1, offset := mc.2 }, none)

/-- Embedding of the `Map.size` setter (map.py:120-123, 148-155): the
`_size` field is assigned first, then `_on_change_size` recovers the new
extent by inverse-projecting the bottom-left pixel corner `(0, h)` and
the top-right pixel corner `(w, 0)` with `pointLocation`. -/
def set_size (m : MapState) (size : ℤ × ℤ) : MapState × Option PyError :=
  let m1 := { m with size := size }
  let p1 := pointLocation m1 ⟨0, (size.2 : ℚ)⟩
  let p2 := pointLocation m1 ⟨(size.1 : ℚ), 0⟩
  ({ m1 with extent := (p1.x, p1.y, p2.x, p2.y) }, none)

/-- The identity-like provider of the spec's concrete scenario (§8):
256-pixel tiles, native zoom 10, `locationCoordinate` maps `(x, y)` to
`(row := y, column := x)` at the provider zoom, and `coordinateLocation`
reads the pair back after rescaling to the native zoom. -/
def idProvider : Provider :=
  { tile_width := 256
    tile_height := 256
    pzoom := 10
    project := fun p => (p.y, p.x)
    coordinateLocation := fun c => ⟨(c.zoomTo 10).column, (c.zoomTo 10).row⟩ }

/-- The map of the spec's concrete scenario: extent `(0, 0, 1, 1)` at
zoom 10 over `idProvider`. -/
def demoMap : MapState := mapInit idProvider (0, 0, 1, 1) 10

/-- Full evaluation of the demo construction: derived pixel size 256x256,
reference tile `(0, 0)` at zoom 10, offset `(-128, -128)`, and — exactly
as in the source — a `_center` field left at `None`. -/
lemma demoMap_eval :
    demoMap = { provider := idProvider, coordinate := ⟨0, 0, 10⟩, offset := ⟨-128, -128⟩,
                extent := (0, 0, 1, 1), center := none, zoom := 10, size := (256, 256) } := by
  norm_num [demoMap, mapInit, idProvider, Provider.locationCoordinate, Coordinate.zoomTo,
    calculateMapCenter, Coordinate.container, pyRound, pyInt]

/-- C9: constructing a map over the identity-like 256-pixel provider with
extent `(0, 0, 1, 1)` at zoom 10 yields derived pixel size `(256, 256)`,
and its offset is exactly the `calculateMapCenter` container-tile
correction for the center coordinate `(row 1/2, column 1/2)` at zoom 10,
i.e. `round((floor(1/2) - 1/2) * 256)` on each axis. -/
theorem concrete_scenario_extent_zoom :
    demoMap.size = (256, 256) ∧
    demoMap.offset = (calculateMapCenter idProvider ⟨1/2, 1/2, 10⟩).2 ∧
    demoMap.offset.x = (pyRound ((⌊(1/2 : ℚ)⌋ - 1/2) * 256) : ℚ) ∧
    demoMap.offset.y = (pyRound ((⌊(1/2 : ℚ)⌋ - 1/2) * 256) : ℚ) := by
  refine ⟨?_, ?_, ?_, ?_⟩ <;>
    norm_num [demoMap_eval, calculateMapCenter, Coordinate.container, idProvider, pyRound]

/-- C6: assigning the size property stores the new size, recomputes the
extent by inverse-projecting the bottom-left pixel corner `(0, h)` and
the top-right pixel corner `(w, 0)` through `pointLocation` (which uses
the current reference coordinate and offset), and leaves `coordinate`,
`offset` and `zoom` unchanged. -/
theorem size_setter_recomputes_extent (m : MapState) (w h : ℤ) :
    (set_size m (w, h)).1.size = (w, h) ∧
    (set_size m (w, h)).1.extent =
      ((pointLocation { m with size := (w, h) } ⟨0, (h : ℚ)⟩).x,
       (pointLocation { m with size := (w, h) } ⟨0, (h : ℚ)⟩).y,
       (pointLocation { m with size := (w, h) } ⟨(w : ℚ), 0⟩).x,
       (pointLocation { m with size := (w, h) } ⟨(w : ℚ), 0⟩).y) ∧
    (set_size m (w, h)).1.coordinate = m.coordinate ∧
    (set_size m (w, h)).1.offset = m.offset ∧
    (set_size m (w, h)).1.zoom = m.zoom := by
  refine ⟨rfl, rfl, rfl, rfl, rfl⟩

/-- C5: the spec requires the zoom setter to reproject a geographic
center that is established at construction and kept current; in the code
`_center` is `None` after construction (the `assert` on it is commented
out), so assigning zoom passes `None` to the provider projection and
raises, with `_zoom` already holding the new value and the reference
coordinate/offset left stale. -/
theorem zoom_setter_stale_center :
    (∀ (P : Provider) (e : ℚ × ℚ × ℚ × ℚ) (z : ℤ), (mapInit P e z).center = none) ∧
    (set_zoom demoMap 11).2 = some PyError.typeError ∧
    (set_zoom demoMap 11).1.zoom = 11 ∧
    (set_zoom demoMap 11).1.coordinate = demoMap.coordinate ∧
    (set_zoom demoMap 11).1.offset = demoMap.offset := by
  refine ⟨fun P e z => ?_, ?_, ?_, ?_, ?_⟩
  · obtain ⟨x1, y1, x2, y2⟩ := e
    rfl
  all_goals simp [set_zoom, demoMap_eval]

/-- Ceiling log2 of 4 evaluates to 2. -/
lemma natClog_two_four : Nat.clog 2 4 = 2 := by
  have h : (4 : ℕ) = 2 ^ 2 := rfl
  rw [h, Nat.clog_pow 2 2 (by norm_num)]

/-- Concrete evaluation: fitting the 4x4-tile extent into a 256x256 image
selects zoom 8 (two levels below the provider zoom 10). -/
lemma calcExtent_demo4 :
    calculateMapExtent idProvider 256 256 [⟨0, 0⟩, ⟨4, 4⟩] =
      .ok (⟨0, 0, 8⟩, ⟨-128, -128⟩) := by
  norm_num [calculateMapExtent, calcExtentCore, listMin, listMax, idProvider,
    Provider.locationCoordinate, calculateMapCenter, Coordinate.container,
    Coordinate.zoomTo, pyRound, natClog_two_four]

/-- Concrete evaluation: a degenerate extent (both corners in column 0)
drives the horizontal factor to 0 and `math.log` raises `ValueError`. -/
lemma calcExtent_deg_eval :
    calculateMapExtent idProvider 256 256 [⟨0, 0⟩, ⟨0, 1⟩] = .error PyError.valueError := by
  norm_num [calculateMapExtent, calcExtentCore, listMin, listMax, idProvider,
    Provider.locationCoordinate]

/-- C4 counterexample: after assigning extent `(0, 0, 4, 4)` on the demo
map, `calculateMapExtent` selected zoom 8 (stored in the coordinate), but
the reported zoom is still the prior value 10. -/
theorem extent_setter_reported_zoom_cex :
    calculateMapExtent idProvider 256 256 [⟨0, 0⟩, ⟨4, 4⟩] = .ok (⟨0, 0, 8⟩, ⟨-128, -128⟩) ∧
    (set_extent demoMap (0, 0, 4, 4)).2 = none ∧
    (set_extent demoMap (0, 0, 4, 4)).1.zoom = 10 ∧
    (set_extent demoMap (0, 0, 4, 4)).1.coordinate.zoom = 8 ∧
    (set_extent demoMap (0, 0, 4, 4)).1.zoom ≠ (set_extent demoMap (0, 0, 4, 4)).1.coordinate.zoom := by
  refine ⟨calcExtent_demo4, ?_, ?_, ?_, ?_⟩ <;>
    simp [set_extent, demoMap_eval, calcExtent_demo4]

/-- C4 amended: assigning the extent property leaves the reported zoom at
its prior value; the zoom selected by `calculateMapExtent` is recorded
only in the derived reference coordinate. -/
theorem extent_setter_reported_zoom (m : MapState) (x1 y1 x2 y2 : ℚ) :
    (set_extent m (x1, y1, x2, y2)).1.zoom = m.zoom ∧
    ∀ mc mo, calculateMapExtent m.provider m.size.1 m.size.2 [⟨x1, y1⟩, ⟨x2, y2⟩] =
        .ok (mc, mo) →
      (set_extent m (x1, y1, x2, y2)).1.coordinate = mc := by
  constructor
  · simp only [set_extent]
    cases h : calculateMapExtent m.provider m.size.1 m.size.2 [⟨x1, y1⟩, ⟨x2, y2⟩] with
    | error err => simp [h]
    | ok val => simp [h]
  · intro mc mo hok
    simp [set_extent, hok]

/-- C4 witness: on the demo map the first part holds, and the ok-case
hypothesis is satisfiable at the 4x4-tile extent. -/
theorem extent_setter_reported_zoom_w :
    (set_extent demoMap (0, 0, 4, 4)).1.zoom = demoMap.zoom ∧
    (set_extent demoMap (0, 0, 4, 4)).1.coordinate = ⟨0, 0, 8⟩ := by
  refine ⟨(extent_setter_reported_zoom demoMap 0 0 4 4).1, ?_⟩
  exact (extent_setter_reported_zoom demoMap 0 0 4 4).2 ⟨0, 0, 8⟩ ⟨-128, -128⟩
    (by simpa [demoMap_eval] using calcExtent_demo4)

/-- C7 counterexample: a failing extent assignment (degenerate extent, so
`_on_change_extent` raises) does not leave the prior state untouched: the
`_extent` field already holds the new value. -/
theorem mutator_failure_partial_state_cex :
    (set_extent demoMap (0, 0, 0, 1)).2 = some PyError.valueError ∧
    (set_extent demoMap (0, 0, 0, 1)).1.extent = (0, 0, 0, 1) ∧
    demoMap.extent = (0, 0, 1, 1) ∧
    (set_extent demoMap (0, 0, 0, 1)).1.extent ≠ demoMap.extent := by
  refine ⟨?_, ?_, ?_, ?_⟩ <;>
    simp [set_extent, demoMap_eval, calcExtent_deg_eval]

/-- C7 amended: on a failing mutation the primary field being assigned
already holds the new value while the derived fields keep their prior
values; the size setter never fails in this model. -/
theorem mutator_failure_primary_committed (m : MapState) :
    (∀ e : ℚ × ℚ × ℚ × ℚ,
      (set_extent m e).2.isSome → (set_extent m e).1 = { m with extent := e }) ∧
    (∀ z : ℤ, (set_zoom m z).2.isSome → (set_zoom m z).1 = { m with zoom := z }) ∧
    (∀ s : ℤ × ℤ, (set_size m s).2 = none) := by
  refine ⟨fun e hsome => ?_, fun z hsome => ?_, fun s => rfl⟩
  · obtain ⟨x1, y1, x2, y2⟩ := e
    simp only [set_extent] at hsome ⊢
    cases h : calculateMapExtent m.provider m.size.1 m.size.2 [⟨x1, y1⟩, ⟨x2, y2⟩] with
    | error err => simp [h]
    | ok val => simp [h] at hsome
  · simp only [set_zoom] at hsome ⊢
    cases hc : m.center with
    | none => simp [hc]
    | some ctr => simp [hc] at hsome

/-- C7 witness: the failing-extent and failing-zoom branches are reached
on the demo map. -/
theorem mutator_failure_primary_committed_w :
    (set_extent demoMap (0, 0, 0, 1)).1 = { demoMap with extent := (0, 0, 0, 1) } ∧
    (set_zoom demoMap 11).1 = { demoMap with zoom := 11 } := by
  refine ⟨(mutator_failure_primary_committed demoMap).1 (0, 0, 0, 1) ?_,
          (mutator_failure_primary_committed demoMap).2.1 11 ?_⟩
  · simp [set_extent, demoMap_eval, calcExtent_deg_eval]
  · simp [set_zoom, demoMap_eval]

/-- C8 counterexample: on a degenerate extent (both corners project to
the same column) `calculateMapExtent` propagates the math-domain failure
of the logarithm (Python `ValueError`); there is no named
degenerate-extent error anywhere in the code. -/
theorem degenerate_extent_cex :
    calculateMapExtent idProvider 256 256 [⟨0, 0⟩, ⟨0, 1⟩] = .error PyError.valueError :=
  calcExtent_deg_eval

/-- C8 amended: whenever the two corner locations project to equal
columns or equal rows (zero span on some axis) and the image dimensions
and tile sizes are positive, `calculateMapExtent` fails with the
math-domain `ValueError` coming from `math.log`, not with a named
degenerate-extent error. -/
theorem degenerate_extent_value_error (P : Provider) (w h : ℤ) (la lb : Point)
    (hw : 0 < w) (hh : 0 < h) (htw : 0 < P.tile_width) (hth : 0 < P.tile_height)
    (hdeg : (P.locationCoordinate la).column = (P.locationCoordinate lb).column ∨
            (P.locationCoordinate la).row = (P.locationCoordinate lb).row) :
    calculateMapExtent P w h [la, lb] = .error PyError.valueError := by
  have hwq : (0 : ℚ) < (w : ℚ) / P.tile_width := by
    apply div_pos <;> exact_mod_cast ‹_›
  have hhq : (0 : ℚ) < (h : ℚ) / P.tile_height := by
    apply div_pos <;> exact_mod_cast ‹_›
  simp only [calculateMapExtent, List.map, listMin, listMax, List.foldl, calcExtentCore]
  rw [if_neg (ne_of_gt hwq)]
  rcases eq_or_ne (P.locationCoordinate la).column (P.locationCoordinate lb).column with
    hceq | hcne
  · rw [if_pos]
    rw [hceq]
    simp
  · have hcol : min (P.locationCoordinate la).column (P.locationCoordinate lb).column <
        max (P.locationCoordinate la).column (P.locationCoordinate lb).column :=
      min_lt_max.mpr hcne
    have hrow : (P.locationCoordinate la).row = (P.locationCoordinate lb).row := by
      rcases hdeg with hc | hr
      · exact absurd hc hcne
      · exact hr
    rw [if_neg, if_neg (ne_of_gt hhq), if_pos]
    · rw [hrow]
      simp
    · push_neg
      exact div_pos (by linarith) hwq

/-- C8 witness: the amended degenerate-extent theorem applies at the
concrete equal-column corners. -/
theorem degenerate_extent_value_error_w :
    (0 : ℤ) < 256 ∧
    (idProvider.locationCoordinate ⟨0, 0⟩).column =
      (idProvider.locationCoordinate ⟨0, 1⟩).column ∧
    calculateMapExtent idProvider 256 256 [⟨0, 0⟩, ⟨0, 1⟩] = .error PyError.valueError := by
  refine ⟨by norm_num, by norm_num [idProvider, Provider.locationCoordinate], ?_⟩
  exact degenerate_extent_value_error idProvider 256 256 ⟨0, 0⟩ ⟨0, 1⟩ (by norm_num)
    (by norm_num) (by norm_num [idProvider]) (by norm_num [idProvider])
    (Or.inl (by norm_num [idProvider, Provider.locationCoordinate]))

/-- The claim's horizontal candidate zoom: `TL.zoom` minus the ceiling
base-2 log of the column span over `width / tile_width`. -/
def hPossibleZoom (P : Provider) (w : ℤ) (la lb : Point) : ℤ :=
  P.pzoom - Int.clog 2
    ((max (P.locationCoordinate la).column (P.locationCoordinate lb).column -
      min (P.locationCoordinate la).column (P.locationCoordinate lb).column) /
     ((w : ℚ) / P.tile_width))

/-- The claim's vertical candidate zoom, mirroring `hPossibleZoom` with
row span and image height. -/
def vPossibleZoom (P : Provider) (h : ℤ) (la lb : Point) : ℤ :=
  P.pzoom - Int.clog 2
    ((max (P.locationCoordinate la).row (P.locationCoordinate lb).row -
      min (P.locationCoordinate la).row (P.locationCoordinate lb).row) /
     ((h : ℚ) / P.tile_height))

/-- The projected extent fits the image at zoom `Z`: the pixel span of
the bounding box, rescaled from the provider zoom to `Z`, does not exceed
the image width/height on either axis. -/
def extentFits (P : Provider) (w h : ℤ) (la lb : Point) (Z : ℤ) : Prop :=
  (max (P.locationCoordinate la).column (P.locationCoordinate lb).column -
   min (P.locationCoordinate la).column (P.locationCoordinate lb).column) *
      2 ^ (Z - P.pzoom) * P.tile_width ≤ (w : ℚ) ∧
  (max (P.locationCoordinate la).row (P.locationCoordinate lb).row -
   min (P.locationCoordinate la).row (P.locationCoordinate lb).row) *
      2 ^ (Z - P.pzoom) * P.tile_height ≤ (h : ℚ)

/-- One axis of the fit condition is equivalent to an upper bound on the
zoom through the ceiling base-2 logarithm of the span factor. -/
lemma axisFits_iff (span : ℚ) (tile : ℕ) (w pz Z : ℤ)
    (hspan : 0 < span) (htile : 0 < tile) (hw : 0 < w) :
    span * 2 ^ (Z - pz) * tile ≤ (w : ℚ) ↔
      Z ≤ pz - Int.clog 2 (span / ((w : ℚ) / tile)) := by
  have hwq : (0 : ℚ) < (w : ℚ) := by exact_mod_cast hw
  have htq : (0 : ℚ) < (tile : ℚ) := by exact_mod_cast htile
  have h2 : (0 : ℚ) < 2 ^ (Z - pz) := zpow_pos (by norm_num) _
  have hfact : span / ((w : ℚ) / tile) = span * tile / w := div_div_eq_mul_div span _ _
  have hf : 0 < span * tile / w := div_pos (mul_pos hspan htq) hwq
  rw [hfact]
  rw [show span * 2 ^ (Z - pz) * (tile : ℚ) = span * tile * 2 ^ (Z - pz) from by ring]
  rw [← le_div_iff₀ h2, div_eq_mul_inv (w : ℚ), ← zpow_neg, neg_sub, mul_comm (w : ℚ)]
  rw [← div_le_iff₀ hwq]
  have hiff := Int.le_zpow_iff_clog_le (b := 2) (R := ℚ) (by norm_num) hf (x := pz - Z)
  push_cast at hiff
  rw [hiff]
  omega

/-- C1: for positive image dimensions, positive tile sizes and positive
spans on both axes, the zoom of the coordinate returned by
`calculateMapExtent` is `min(hPossibleZoom, vPossibleZoom)`, this zoom
fits the projected extent in both image dimensions, incrementing it by
one overflows at least one axis, and it is the largest fitting zoom. -/
theorem calculateMapExtent_zoom_minmax_optimal (P : Provider) (w h : ℤ) (la lb : Point)
    (res : Coordinate × Point)
    (hw : 0 < w) (hh : 0 < h) (htw : 0 < P.tile_width) (hth : 0 < P.tile_height)
    (hcol : (P.locationCoordinate la).column ≠ (P.locationCoordinate lb).column)
    (hrow : (P.locationCoordinate la).row ≠ (P.locationCoordinate lb).row)
    (hok : calculateMapExtent P w h [la, lb] = .ok res) :
    res.1.zoom = min (hPossibleZoom P w la lb) (vPossibleZoom P h la lb) ∧
    extentFits P w h la lb res.1.zoom ∧
    ¬ extentFits P w h la lb (res.1.zoom + 1) ∧
    ∀ Z : ℤ, extentFits P w h la lb Z → Z ≤ res.1.zoom := by
  have hwq : (0 : ℚ) < (w : ℚ) / P.tile_width := by
    apply div_pos <;> exact_mod_cast ‹_›
  have hhq : (0 : ℚ) < (h : ℚ) / P.tile_height := by
    apply div_pos <;> exact_mod_cast ‹_›
  have hcolspan : 0 < max (P.locationCoordinate la).column (P.locationCoordinate lb).column -
      min (P.locationCoordinate la).column (P.locationCoordinate lb).column :=
    sub_pos.mpr (min_lt_max.mpr hcol)
  have hrowspan : 0 < max (P.locationCoordinate la).row (P.locationCoordinate lb).row -
      min (P.locationCoordinate la).row (P.locationCoordinate lb).row :=
    sub_pos.mpr (min_lt_max.mpr hrow)
  have hzoom : res.1.zoom = min (hPossibleZoom P w la lb) (vPossibleZoom P h la lb) := by
    simp only [calculateMapExtent, List.map, listMin, listMax, List.foldl,
      calcExtentCore] at hok
    rw [if_neg (ne_of_gt hwq), if_neg (not_le.mpr (div_pos hcolspan hwq)),
      if_neg (ne_of_gt hhq), if_neg (not_le.mpr (div_pos hrowspan hhq))] at hok
    rw [Except.ok.injEq] at hok
    subst hok
    simp only [calculateMapCenter, Coordinate.container, Coordinate.zoomTo,
      hPossibleZoom, vPossibleZoom, Provider.locationCoordinate, min_self]
  have hiff : ∀ Z : ℤ, extentFits P w h la lb Z ↔
      Z ≤ min (hPossibleZoom P w la lb) (vPossibleZoom P h la lb) := by
    intro Z
    unfold extentFits
    rw [axisFits_iff _ _ _ _ _ hcolspan htw hw, axisFits_iff _ _ _ _ _ hrowspan hth hh]
    unfold hPossibleZoom vPossibleZoom
    omega
  refine ⟨hzoom, (hiff _).mpr (le_of_eq hzoom), fun hfit => ?_, fun Z hfit => ?_⟩
  · have := (hiff _).mp hfit
    omega
  · have := (hiff _).mp hfit
    omega

/-- C1 witness: at the demo corners the chosen zoom 8 fits and zoom 9
overflows. -/
theorem calculateMapExtent_zoom_minmax_optimal_w :
    extentFits idProvider 256 256 ⟨0, 0⟩ ⟨4, 4⟩ 8 ∧
    ¬ extentFits idProvider 256 256 ⟨0, 0⟩ ⟨4, 4⟩ 9 := by
  have h := calculateMapExtent_zoom_minmax_optimal idProvider 256 256 ⟨0, 0⟩ ⟨4, 4⟩
    (⟨0, 0, 8⟩, ⟨-128, -128⟩) (by norm_num) (by norm_num) (by norm_num [idProvider])
    (by norm_num [idProvider]) (by norm_num [idProvider, Provider.locationCoordinate])
    (by norm_num [idProvider, Provider.locationCoordinate]) calcExtent_demo4
  exact ⟨h.2.1, by simpa using h.2.2.1⟩

/-- Banker's rounding moves a value by at most one half. -/
lemma abs_pyRound_sub_le (q : ℚ) : |(pyRound q : ℚ) - q| ≤ 1 / 2 := by
  have h0 : ((⌊q⌋ : ℚ)) ≤ q := Int.floor_le q
  have h1 : q < ⌊q⌋ + 1 := Int.lt_floor_add_one q
  simp only [pyRound]
  split_ifs with hlt hgt hev
  · rw [abs_le]
    constructor <;> linarith
  · push_cast
    rw [abs_le]
    constructor <;> linarith
  · have hhalf : q - ⌊q⌋ = 1 / 2 := le_antisymm (not_lt.mp hgt) (not_lt.mp hlt)
    rw [abs_le]
    constructor <;> linarith
  · have hhalf : q - ⌊q⌋ = 1 / 2 := le_antisymm (not_lt.mp hgt) (not_lt.mp hlt)
    push_cast
    rw [abs_le]
    constructor <;> linarith

/-- Rounding then rescaling by a positive factor stays within half the
factor. -/
lemma pyRound_scaled_err (u s' : ℚ) (hs' : 0 < s') :
    |(pyRound u : ℚ) * s' - u * s'| ≤ s' / 2 := by
  rw [← sub_mul, abs_mul, abs_of_pos hs']
  calc |(pyRound u : ℚ) - u| * s' ≤ 1 / 2 * s' :=
        mul_le_mul_of_nonneg_right (abs_pyRound_sub_le u) (le_of_lt hs')
    _ = s' / 2 := by ring

/-- The composition `pointLocation (locationPoint L)` is exactly the
provider's inverse projection of the coordinate of `L` at the view zoom,
rounded at `MAX_ZOOM` and rescaled back: the image size and the offset
cancel symbolically. -/
lemma roundtrip_eq (m : MapState) (L : Point)
    (htw : 0 < m.provider.tile_width) (hth : 0 < m.provider.tile_height) :
    pointLocation m (locationPoint m L) =
      m.provider.coordinateLocation
        ⟨(pyRound (((m.provider.locationCoordinate L).zoomTo m.coordinate.zoom).row *
            2 ^ (MAX_ZOOM - m.coordinate.zoom)) : ℚ) * 2 ^ (m.coordinate.zoom - MAX_ZOOM),
         (pyRound (((m.provider.locationCoordinate L).zoomTo m.coordinate.zoom).column *
            2 ^ (MAX_ZOOM - m.coordinate.zoom)) : ℚ) * 2 ^ (m.coordinate.zoom - MAX_ZOOM),
         m.coordinate.zoom⟩ := by
  have htw' : ((m.provider.tile_width : ℚ)) ≠ 0 := by
    exact_mod_cast Nat.pos_iff_ne_zero.mp htw
  have hth' : ((m.provider.tile_height : ℚ)) ≠ 0 := by
    exact_mod_cast Nat.pos_iff_ne_zero.mp hth
  simp only [pointLocation, locationPoint, Provider.locationCoordinate, Coordinate.zoomTo]
  congr 1
  rw [Coordinate.mk.injEq]
  refine ⟨?_, ?_, rfl⟩
  · refine congrArg (fun t => ((pyRound t : ℚ)) * 2 ^ (m.coordinate.zoom - MAX_ZOOM)) ?_
    field_simp
    ring
  · refine congrArg (fun t => ((pyRound t : ℚ)) * 2 ^ (m.coordinate.zoom - MAX_ZOOM)) ?_
    field_simp
    ring

/-- C2: for any location, the pixel-to-location conversion applied to the
location-to-pixel conversion returns a location within the provider's
projection tolerance: the reconstructed tile coordinate differs from the
location's coordinate by at most half a tile unit at `MAX_ZOOM` (rescaled
to the view zoom), so any provider whose inverse projection respects
that precision radius returns the original location within `tol`. -/
theorem roundtrip_within_tolerance (m : MapState) (L : Point) (tol : ℚ)
    (htw : 0 < m.provider.tile_width) (hth : 0 < m.provider.tile_height)
    (hinv : ∀ c' : Coordinate, c'.zoom = m.coordinate.zoom →
      |c'.row - ((m.provider.locationCoordinate L).zoomTo m.coordinate.zoom).row| ≤
        2 ^ (m.coordinate.zoom - MAX_ZOOM) / 2 →
      |c'.column - ((m.provider.locationCoordinate L).zoomTo m.coordinate.zoom).column| ≤
        2 ^ (m.coordinate.zoom - MAX_ZOOM) / 2 →
      |(m.provider.coordinateLocation c').x - L.x| ≤ tol ∧
      |(m.provider.coordinateLocation c').y - L.y| ≤ tol) :
    |(pointLocation m (locationPoint m L)).x - L.x| ≤ tol ∧
    |(pointLocation m (locationPoint m L)).y - L.y| ≤ tol := by
  rw [roundtrip_eq m L htw hth]
  have hs : (2 : ℚ) ^ (MAX_ZOOM - m.coordinate.zoom) *
      2 ^ (m.coordinate.zoom - MAX_ZOOM) = 1 := by
    rw [← zpow_add₀ (by norm_num : (2 : ℚ) ≠ 0)]
    norm_num
  have hs' : (0 : ℚ) < 2 ^ (m.coordinate.zoom - MAX_ZOOM) := zpow_pos (by norm_num) _
  apply hinv
  · rfl
  · show |(pyRound (((m.provider.locationCoordinate L).zoomTo m.coordinate.zoom).row *
        2 ^ (MAX_ZOOM - m.coordinate.zoom)) : ℚ) * 2 ^ (m.coordinate.zoom - MAX_ZOOM) -
        ((m.provider.locationCoordinate L).zoomTo m.coordinate.zoom).row| ≤
      2 ^ (m.coordinate.zoom - MAX_ZOOM) / 2
    nth_rewrite 2 [show ((m.provider.locationCoordinate L).zoomTo m.coordinate.zoom).row =
      ((m.provider.locationCoordinate L).zoomTo m.coordinate.zoom).row *
        2 ^ (MAX_ZOOM - m.coordinate.zoom) * 2 ^ (m.coordinate.zoom - MAX_ZOOM) from by
      rw [mul_assoc, hs, mul_one]]
    exact pyRound_scaled_err _ _ hs'
  · show |(pyRound (((m.provider.locationCoordinate L).zoomTo m.coordinate.zoom).column *
        2 ^ (MAX_ZOOM - m.coordinate.zoom)) : ℚ) * 2 ^ (m.coordinate.zoom - MAX_ZOOM) -
        ((m.provider.locationCoordinate L).zoomTo m.coordinate.zoom).column| ≤
      2 ^ (m.coordinate.zoom - MAX_ZOOM) / 2
    nth_rewrite 2 [show ((m.provider.locationCoordinate L).zoomTo m.coordinate.zoom).column =
      ((m.provider.locationCoordinate L).zoomTo m.coordinate.zoom).column *
        2 ^ (MAX_ZOOM - m.coordinate.zoom) * 2 ^ (m.coordinate.zoom - MAX_ZOOM) from by
      rw [mul_assoc, hs, mul_one]]
    exact pyRound_scaled_err _ _ hs'

/-- C2 witness: on the demo map over the identity provider the round
trip of the location `(1/4, 3/8)` stays within half a `MAX_ZOOM` unit. -/
theorem roundtrip_within_tolerance_w :
    |(pointLocation demoMap (locationPoint demoMap ⟨1/4, 3/8⟩)).x - 1/4| ≤
      (2 : ℚ) ^ (-16 : ℤ) / 2 ∧
    |(pointLocation demoMap (locationPoint demoMap ⟨1/4, 3/8⟩)).y - 3/8| ≤
      (2 : ℚ) ^ (-16 : ℤ) / 2 := by
  have h := roundtrip_within_tolerance demoMap ⟨1/4, 3/8⟩ ((2 : ℚ) ^ (-16 : ℤ) / 2)
    (by norm_num [demoMap_eval, idProvider]) (by norm_num [demoMap_eval, idProvider]) ?_
  · exact h
  · intro c' hz h1 h2
    simp only [demoMap_eval, idProvider, Provider.locationCoordinate, Coordinate.zoomTo,
      MAX_ZOOM] at hz h1 h2 ⊢
    rw [hz]
    norm_num at h1 h2 ⊢
    exact ⟨h2, h1⟩

/-- Folding `min` gives a lower bound for the start and all elements. -/
lemma foldl_min_le {α : Type} [LinearOrder α] :
    ∀ (xs : List α) (x : α), xs.foldl min x ≤ x ∧ ∀ y ∈ xs, xs.foldl min x ≤ y := by
  intro xs
  induction xs with
  | nil => intro x; simp
  | cons z zs ih =>
    intro x
    simp only [List.foldl_cons]
    obtain ⟨h1, h2⟩ := ih (min x z)
    refine ⟨le_trans h1 (min_le_left _ _), fun y hy => ?_⟩
    rcases List.mem_cons.mp hy with rfl | hy'
    · exact le_trans h1 (min_le_right _ _)
    · exact h2 y hy'

/-- Folding `min` lands on the start or on a list element. -/
lemma foldl_min_mem {α : Type} [LinearOrder α] :
    ∀ (xs : List α) (x : α), xs.foldl min x = x ∨ xs.foldl min x ∈ xs := by
  intro xs
  induction xs with
  | nil => intro x; simp
  | cons z zs ih =>
    intro x
    simp only [List.foldl_cons]
    rcases ih (min x z) with h | h
    · rcases min_choice x z with hc | hc
      · left
        rw [h, hc]
      · right
        rw [h, hc]
        exact List.mem_cons_self _ _
    · right
      exact List.mem_cons_of_mem _ h

/-- Folding `max` gives an upper bound for the start and all elements. -/
lemma foldl_max_ge {α : Type} [LinearOrder α] :
    ∀ (xs : List α) (x : α), x ≤ xs.foldl max x ∧ ∀ y ∈ xs, y ≤ xs.foldl max x := by
  intro xs
  induction xs with
  | nil => intro x; simp
  | cons z zs ih =>
    intro x
    simp only [List.foldl_cons]
    obtain ⟨h1, h2⟩ := ih (max x z)
    refine ⟨le_trans (le_max_left _ _) h1, fun y hy => ?_⟩
    rcases List.mem_cons.mp hy with rfl | hy'
    · exact le_trans (le_max_right _ _) h1
    · exact h2 y hy'

/-- Folding `max` lands on the start or on a list element. -/
lemma foldl_max_mem {α : Type} [LinearOrder α] :
    ∀ (xs : List α) (x : α), xs.foldl max x = x ∨ xs.foldl max x ∈ xs := by
  intro xs
  induction xs with
  | nil => intro x; simp
  | cons z zs ih =>
    intro x
    simp only [List.foldl_cons]
    rcases ih (max x z) with h | h
    · rcases max_choice x z with hc | hc
      · left
        rw [h, hc]
      · right
        rw [h, hc]
        exact List.mem_cons_self _ _
    · right
      exact List.mem_cons_of_mem _ h

/-- The Python minimum of a nonempty list is one of its elements. -/
lemma listMin_mem {α : Type} [LinearOrder α] [Inhabited α] {l : List α} (h : l ≠ []) :
    listMin l ∈ l := by
  cases l with
  | nil => exact absurd rfl h
  | cons x xs =>
    simp only [listMin]
    rcases foldl_min_mem xs x with h' | h'
    · rw [h']
      exact List.mem_cons_self _ _
    · exact List.mem_cons_of_mem _ h'

/-- The Python minimum of a list bounds every element from below. -/
lemma listMin_le {α : Type} [LinearOrder α] [Inhabited α] {l : List α} {y : α}
    (hy : y ∈ l) : listMin l ≤ y := by
  cases l with
  | nil => simp at hy
  | cons x xs =>
    simp only [listMin]
    rcases List.mem_cons.mp hy with rfl | hy'
    · exact (foldl_min_le xs y).1
    · exact (foldl_min_le xs x).2 y hy'

/-- The Python maximum of a nonempty list is one of its elements. -/
lemma listMax_mem {α : Type} [LinearOrder α] [Inhabited α] {l : List α} (h : l ≠ []) :
    listMax l ∈ l := by
  cases l with
  | nil => exact absurd rfl h
  | cons x xs =>
    simp only [listMax]
    rcases foldl_max_mem xs x with h' | h'
    · rw [h']
      exact List.mem_cons_self _ _
    · exact List.mem_cons_of_mem _ h'

/-- The Python maximum of a list bounds every element from above. -/
lemma listMax_ge {α : Type} [LinearOrder α] [Inhabited α] {l : List α} {y : α}
    (hy : y ∈ l) : y ≤ listMax l := by
  cases l with
  | nil => simp at hy
  | cons x xs =>
    simp only [listMax]
    rcases List.mem_cons.mp hy with rfl | hy'
    · exact (foldl_max_ge xs y).1
    · exact (foldl_max_ge xs x).2 y hy'

/-- The Python minimum is invariant under permutation. -/
lemma listMin_perm {α : Type} [LinearOrder α] [Inhabited α] {l₁ l₂ : List α}
    (h : l₁.Perm l₂) : listMin l₁ = listMin l₂ := by
  cases l₁ with
  | nil =>
    have h2 := h.symm.eq_nil
    rw [h2]
  | cons x xs =>
    have hne₁ : (x :: xs) ≠ [] := List.cons_ne_nil x xs
    have hne₂ : l₂ ≠ [] := by
      intro hnil
      rw [hnil] at h
      exact hne₁ h.eq_nil
    exact le_antisymm (listMin_le (h.mem_iff.mpr (listMin_mem hne₂)))
      (listMin_le (h.symm.mem_iff.mpr (listMin_mem hne₁)))

/-- The Python maximum is invariant under permutation. -/
lemma listMax_perm {α : Type} [LinearOrder α] [Inhabited α] {l₁ l₂ : List α}
    (h : l₁.Perm l₂) : listMax l₁ = listMax l₂ := by
  cases l₁ with
  | nil =>
    have h2 := h.symm.eq_nil
    rw [h2]
  | cons x xs =>
    have hne₁ : (x :: xs) ≠ [] := List.cons_ne_nil x xs
    have hne₂ : l₂ ≠ [] := by
      intro hnil
      rw [hnil] at h
      exact hne₁ h.eq_nil
    exact le_antisymm (listMax_ge (h.symm.mem_iff.mpr (listMax_mem hne₁)))
      (listMax_ge (h.mem_iff.mpr (listMax_mem hne₂)))

/-- Prepending an element that is at least the minimum keeps the minimum. -/
lemma listMin_cons_of_le {α : Type} [LinearOrder α] [Inhabited α] {l : List α} {x : α}
    (hne : l ≠ []) (hx : listMin l ≤ x) : listMin (x :: l) = listMin l := by
  apply le_antisymm
  · exact listMin_le (List.mem_cons_of_mem _ (listMin_mem hne))
  · rcases List.mem_cons.mp (listMin_mem (List.cons_ne_nil x l)) with h | h
    · rw [h]
      exact hx
    · exact listMin_le h

/-- Prepending an element that is at most the maximum keeps the maximum. -/
lemma listMax_cons_of_ge {α : Type} [LinearOrder α] [Inhabited α] {l : List α} {x : α}
    (hne : l ≠ []) (hx : x ≤ listMax l) : listMax (x :: l) = listMax l := by
  apply le_antisymm
  · rcases List.mem_cons.mp (listMax_mem (List.cons_ne_nil x l)) with h | h
    · rw [h]
      exact hx
    · exact listMax_ge h
  · exact listMax_ge (List.mem_cons_of_mem _ (listMax_mem hne))

/-- Unfolding `calculateMapExtent` on a nonempty location list. -/
lemma calculateMapExtent_ne_nil (P : Provider) (w h : ℤ) (l : List Point) (hne : l ≠ []) :
    calculateMapExtent P w h l = calcExtentCore P w h
      ⟨listMin ((l.map P.locationCoordinate).map Coordinate.row),
       listMin ((l.map P.locationCoordinate).map Coordinate.column),
       listMin ((l.map P.locationCoordinate).map Coordinate.zoom)⟩
      ⟨listMax ((l.map P.locationCoordinate).map Coordinate.row),
       listMax ((l.map P.locationCoordinate).map Coordinate.column),
       listMax ((l.map P.locationCoordinate).map Coordinate.zoom)⟩ := by
  cases l with
  | nil => exact absurd rfl hne
  | cons a rest => rfl

/-- All projected zooms are the provider's fixed zoom, so their minimum
is too. -/
lemma listMin_zoom_const (P : Provider) (l : List Point) (hne : l ≠ []) :
    listMin ((l.map P.locationCoordinate).map Coordinate.zoom) = P.pzoom := by
  have hne' : (l.map P.locationCoordinate).map Coordinate.zoom ≠ [] := by
    simp [hne]
  have hmem := listMin_mem hne'
  simp only [List.mem_map] at hmem
  obtain ⟨c, ⟨pt, hpt, hc⟩, hz⟩ := hmem
  rw [← hz, ← hc]
  rfl

/-- All projected zooms are the provider's fixed zoom, so their maximum
is too. -/
lemma listMax_zoom_const (P : Provider) (l : List Point) (hne : l ≠ []) :
    listMax ((l.map P.locationCoordinate).map Coordinate.zoom) = P.pzoom := by
  have hne' : (l.map P.locationCoordinate).map Coordinate.zoom ≠ [] := by
    simp [hne]
  have hmem := listMax_mem hne'
  simp only [List.mem_map] at hmem
  obtain ⟨c, ⟨pt, hpt, hc⟩, hz⟩ := hmem
  rw [← hz, ← hc]
  rfl

/-- C10: `calculateMapExtent` accepts any nonempty location sequence and
its result depends only on the per-axis minima and maxima of the
projected coordinates: permuting the locations leaves the result
unchanged, and prepending a location whose projected coordinate lies
inside the existing per-axis bounds leaves the result unchanged. -/
theorem extent_depends_only_on_bounds :
    (∀ (P : Provider) (w h : ℤ) (l₁ l₂ : List Point), l₁.Perm l₂ →
      calculateMapExtent P w h l₁ = calculateMapExtent P w h l₂) ∧
    (∀ (P : Provider) (w h : ℤ) (p : Point) (l : List Point), l ≠ [] →
      listMin ((l.map P.locationCoordinate).map Coordinate.row) ≤
        (P.locationCoordinate p).row →
      (P.locationCoordinate p).row ≤
        listMax ((l.map P.locationCoordinate).map Coordinate.row) →
      listMin ((l.map P.locationCoordinate).map Coordinate.column) ≤
        (P.locationCoordinate p).column →
      (P.locationCoordinate p).column ≤
        listMax ((l.map P.locationCoordinate).map Coordinate.column) →
      calculateMapExtent P w h (p :: l) = calculateMapExtent P w h l) := by
  constructor
  · intro P w h l₁ l₂ hperm
    cases l₁ with
    | nil =>
      rw [hperm.symm.eq_nil]
    | cons a r =>
      have hne₁ : (a :: r) ≠ [] := List.cons_ne_nil a r
      have hne₂ : l₂ ≠ [] := by
        intro hnil
        rw [hnil] at hperm
        exact hne₁ hperm.eq_nil
      have hm := hperm.map P.locationCoordinate
      rw [calculateMapExtent_ne_nil _ _ _ _ hne₁, calculateMapExtent_ne_nil _ _ _ _ hne₂,
        listMin_perm (hm.map Coordinate.row), listMin_perm (hm.map Coordinate.column),
        listMin_perm (hm.map Coordinate.zoom), listMax_perm (hm.map Coordinate.row),
        listMax_perm (hm.map Coordinate.column), listMax_perm (hm.map Coordinate.zoom)]
  · intro P w h p l hne h1 h2 h3 h4
    have hne' : ∀ g : Coordinate → ℚ, (l.map P.locationCoordinate).map g ≠ [] := by
      intro g
      simp [hne]
    have hnez : (l.map P.locationCoordinate).map Coordinate.zoom ≠ [] := by
      simp [hne]
    rw [calculateMapExtent_ne_nil _ _ _ _ (List.cons_ne_nil p l),
      calculateMapExtent_ne_nil _ _ _ _ hne]
    simp only [List.map_cons]
    rw [listMin_cons_of_le (hne' Coordinate.row) h1,
      listMax_cons_of_ge (hne' Coordinate.row) h2,
      listMin_cons_of_le (hne' Coordinate.column) h3,
      listMax_cons_of_ge (hne' Coordinate.column) h4,
      listMin_cons_of_le hnez (by rw [listMin_zoom_const P l hne]; exact le_refl _),
      listMax_cons_of_ge hnez (by rw [listMax_zoom_const P l hne]; exact le_refl _)]

/-- C10 witness: swapping the two demo corners, and inserting the
interior point `(2, 2)`, leave the result unchanged. -/
theorem extent_depends_only_on_bounds_w :
    calculateMapExtent idProvider 256 256 [⟨0, 0⟩, ⟨4, 4⟩] =
      calculateMapExtent idProvider 256 256 [⟨4, 4⟩, ⟨0, 0⟩] ∧
    calculateMapExtent idProvider 256 256 [⟨2, 2⟩, ⟨0, 0⟩, ⟨4, 4⟩] =
      calculateMapExtent idProvider 256 256 [⟨0, 0⟩, ⟨4, 4⟩] := by
  constructor
  · exact extent_depends_only_on_bounds.1 idProvider 256 256 [⟨0, 0⟩, ⟨4, 4⟩]
      [⟨4, 4⟩, ⟨0, 0⟩] (List.Perm.swap (⟨4, 4⟩ : Point) (⟨0, 0⟩ : Point) [])
  · refine extent_depends_only_on_bounds.2 idProvider 256 256 ⟨2, 2⟩ [⟨0, 0⟩, ⟨4, 4⟩]
      (by simp) ?_ ?_ ?_ ?_ <;>
      norm_num [listMin, listMax, idProvider, Provider.locationCoordinate]

/-- Modelled from the spec (§3): a tile request `{provider, coordinate,
destination}` as produced by the tile grid enumerator; destinations are
integral pixel positions. -/
structure TileRequest where
  provider : Provider
  coordinate : Coordinate
  destination : ℤ × ℤ

/-- First `while` loop of `render_map` (map.py:254-256): step the corner
pixel left by one tile width and the coordinate one column left while the
corner is right of zero.  A non-positive step never enters the loop body
(in Python a zero tile width would loop forever; tile sizes are positive). -/
def shiftLeftLoop (corner : ℤ) (c : Coordinate) (step : ℕ) : ℤ × Coordinate :=
  if _h : 0 < corner ∧ 0 < step then shiftLeftLoop (corner - step) c.left step
  else (corner, c)
termination_by corner.toNat
decreasing_by
  omega

/-- Second `while` loop of `render_map` (map.py:258-260): same as
`shiftLeftLoop` along the vertical axis with `up`. -/
def shiftUpLoop (corner : ℤ) (c : Coordinate) (step : ℕ) : ℤ × Coordinate :=
  if _h : 0 < corner ∧ 0 < step then shiftUpLoop (corner - step) c.up step
  else (corner, c)
termination_by corner.toNat
decreasing_by
  omega

/-- Python `range(start, stop, step)` for a positive step. -/
def intRange (start stop : ℤ) (step : ℕ) : List ℤ :=
  if 0 < step ∧ start < stop then
    (List.range (((stop - start).toNat + step - 1) / step)).map
      (fun i : ℕ => start + (i : ℤ) * step)
  else []

/-- Inner `for` loop of `render_map` (map.py:267-269): one row of tile
requests, advancing the coordinate with `right()`. -/
def rowTiles (P : Provider) (c : Coordinate) (y : ℤ) : List ℤ → List TileRequest
  | [] => []
  | x :: xs => ⟨P, c, (x, y)⟩ :: rowTiles P c.right y xs

/-- Outer `for` loop of `render_map` (map.py:265-270): rows of tile
requests, advancing the row coordinate with `down()`. -/
def gridTiles (P : Provider) (c : Coordinate) (xs : List ℤ) : List ℤ → List TileRequest
  | [] => []
  | y :: ys => rowTiles P c y xs ++ gridTiles P c.down xs ys

/-- Embedding of the tile enumeration of `render_map` (map.py:250-272):
compute the reference tile's corner pixel, walk left/up to the
top-left-most contributing tile, then enumerate tile-sized steps across
the image.  The resulting list is what the source hands to the external
`render_tiles` compositor together with the image size. -/
def render_map_tiles (m : MapState) : List TileRequest :=
  let w := m.size.1
  let h := m.size.2
  let corner0x := pyInt (m.offset.x + (w : ℚ) / 2)
  let corner0y := pyInt (m.offset.y + (h : ℚ) / 2)
  let shiftedX := shiftLeftLoop corner0x m.coordinate m.provider.tile_width
  let shiftedY := shiftUpLoop corner0y shiftedX.2 m.provider.tile_height
  gridTiles m.provider shiftedY.2 (intRange shiftedX.1 w m.provider.tile_width)
    (intRange shiftedY.1 h m.provider.tile_height)

/-- The left-walking loop exits at the first corner value at or left of
zero, after shifting the coordinate by one column per iteration. -/
lemma shiftLeftLoop_spec (step : ℕ) (hs : 0 < step) :
    ∀ (n : ℕ) (corner : ℤ), corner.toNat ≤ n → ∀ c : Coordinate,
      ∃ k : ℕ, shiftLeftLoop corner c step =
        (corner - k * step, ⟨c.row, c.column - k, c.zoom⟩) ∧ corner - (k : ℤ) * step ≤ 0 := by
  intro n
  induction n with
  | zero =>
    intro corner hc c
    refine ⟨0, ?_, by omega⟩
    rw [shiftLeftLoop, dif_neg (by push_neg; intro hpos; omega)]
    simp
  | succ n ih =>
    intro corner hc c
    by_cases hpos : 0 < corner
    · obtain ⟨k, hk, hle⟩ := ih (corner - step) (by omega) c.left
      refine ⟨k + 1, ?_, by push_cast at hle ⊢; linarith⟩
      rw [shiftLeftLoop, dif_pos ⟨hpos, hs⟩, hk, Prod.mk.injEq, Coordinate.mk.injEq]
      refine ⟨by push_cast; ring, rfl, by simp [Coordinate.left]; ring, rfl⟩
    · refine ⟨0, ?_, by omega⟩
      rw [shiftLeftLoop, dif_neg (by push_neg; intro hp; exact absurd hp hpos)]
      simp

/-- The up-walking loop exits at the first corner value at or above zero,
after shifting the coordinate by one row per iteration. -/
lemma shiftUpLoop_spec (step : ℕ) (hs : 0 < step) :
    ∀ (n : ℕ) (corner : ℤ), corner.toNat ≤ n → ∀ c : Coordinate,
      ∃ k : ℕ, shiftUpLoop corner c step =
        (corner - k * step, ⟨c.row - k, c.column, c.zoom⟩) ∧ corner - (k : ℤ) * step ≤ 0 := by
  intro n
  induction n with
  | zero =>
    intro corner hc c
    refine ⟨0, ?_, by omega⟩
    rw [shiftUpLoop, dif_neg (by push_neg; intro hpos; omega)]
    simp
  | succ n ih =>
    intro corner hc c
    by_cases hpos : 0 < corner
    · obtain ⟨k, hk, hle⟩ := ih (corner - step) (by omega) c.up
      refine ⟨k + 1, ?_, by push_cast at hle ⊢; linarith⟩
      rw [shiftUpLoop, dif_pos ⟨hpos, hs⟩, hk, Prod.mk.injEq, Coordinate.mk.injEq]
      refine ⟨by push_cast; ring, by simp [Coordinate.up]; ring, rfl, rfl⟩
    · refine ⟨0, ?_, by omega⟩
      rw [shiftUpLoop, dif_neg (by push_neg; intro hp; exact absurd hp hpos)]
      simp

/-- Element access in `intRange`: the `i`-th produced value is
`start + i * step`. -/
lemma intRange_getElem (start stop : ℤ) (step : ℕ) (i : ℕ)
    (h : i < (intRange start stop step).length) :
    (intRange start stop step)[i] = start + i * step := by
  by_cases hc : 0 < step ∧ start < stop
  · simp only [intRange, if_pos hc] at h ⊢
    rw [List.getElem_map, List.getElem_range]
  · simp only [intRange, if_neg hc] at h
    simp at h

/-- An index is inside `intRange start stop step` exactly when the value
it addresses is below `stop`. -/
lemma lt_intRange_length_iff (start stop : ℤ) (step : ℕ) (hs : 0 < step)
    (hlt : start < stop) (i : ℕ) :
    i < (intRange start stop step).length ↔ start + i * step < stop := by
  simp only [intRange, if_pos (And.intro hs hlt), List.length_map, List.length_range]
  rw [Nat.lt_iff_add_one_le, Nat.le_div_iff_mul_le hs,
    show (i + 1) * step = i * step + step from by ring]
  have hcast : ((i * step : ℕ) : ℤ) = (i : ℤ) * step := by push_cast; ring
  rw [show (i : ℤ) * (step : ℤ) = ((i * step : ℕ) : ℤ) from hcast.symm]
  omega

/-- Membership in one row of tile requests: the requests are exactly the
successive columns starting at `c` paired with the successive `x`
positions. -/
lemma mem_rowTiles (P : Provider) (y : ℤ) :
    ∀ (xs : List ℤ) (c : Coordinate) (t : TileRequest),
      (t ∈ rowTiles P c y xs ↔
        ∃ i : ℕ, ∃ hi : i < xs.length,
          t = ⟨P, ⟨c.row, c.column + i, c.zoom⟩, (xs[i], y)⟩) := by
  intro xs
  induction xs with
  | nil =>
    intro c t
    simp [rowTiles]
  | cons x xs' ih =>
    intro c t
    simp only [rowTiles, List.mem_cons]
    constructor
    · rintro (rfl | ht)
      · exact ⟨0, by simp, by simp⟩
      · obtain ⟨i, hi, rfl⟩ := (ih c.right t).mp ht
        refine ⟨i + 1, by simpa using Nat.succ_lt_succ hi, ?_⟩
        simp [Coordinate.right]
        ring
    · rintro ⟨i, hi, rfl⟩
      cases i with
      | zero =>
        left
        simp
      | succ i' =>
        right
        apply (ih c.right _).mpr
        refine ⟨i', by simpa using Nat.lt_of_succ_lt_succ hi, ?_⟩
        simp [Coordinate.right]
        ring

/-- Membership in the tile grid: the requests are exactly the cells of
the rectangle of rows `ys` and columns `xs`, with the coordinate advanced
`down` per row and `right` per column from the anchor `c`. -/
lemma mem_gridTiles (P : Provider) (xs : List ℤ) :
    ∀ (ys : List ℤ) (c : Coordinate) (t : TileRequest),
      (t ∈ gridTiles P c xs ys ↔
        ∃ j : ℕ, ∃ hj : j < ys.length, ∃ i : ℕ, ∃ hi : i < xs.length,
          t = ⟨P, ⟨c.row + j, c.column + i, c.zoom⟩, (xs[i], ys[j])⟩) := by
  intro ys
  induction ys with
  | nil =>
    intro c t
    simp [gridTiles]
  | cons y ys' ih =>
    intro c t
    simp only [gridTiles, List.mem_append]
    rw [mem_rowTiles]
    constructor
    · rintro (⟨i, hi, rfl⟩ | ht)
      · refine ⟨0, by simp, i, hi, ?_⟩
        simp
      · obtain ⟨j, hj, i, hi, rfl⟩ := (ih c.down t).mp ht
        refine ⟨j + 1, by simpa using Nat.succ_lt_succ hj, i, hi, ?_⟩
        simp [Coordinate.down]
        ring
    · rintro ⟨j, hj, i, hi, rfl⟩
      cases j with
      | zero =>
        left
        refine ⟨i, hi, ?_⟩
        simp
      | succ j' =>
        right
        apply (ih c.down _).mpr
        refine ⟨j', by simpa using Nat.lt_of_succ_lt_succ hj, i, hi, ?_⟩
        simp [Coordinate.down]
        ring

/-- Two cells covering the same pixel along one axis coincide. -/
lemma grid_index_unique (a : ℤ) (s : ℕ) (p : ℤ) (i i' : ℕ)
    (h1 : a + i * s ≤ p) (h2 : p < a + i * s + s)
    (h1' : a + i' * s ≤ p) (h2' : p < a + i' * s + s) : i = i' := by
  by_contra hne
  rcases Nat.lt_or_ge i i' with hlt | hge
  · have hc : (i + 1) * s ≤ i' * s := Nat.mul_le_mul_right _ hlt
    have hz : ((i : ℤ) + 1) * s ≤ (i' : ℤ) * s := by exact_mod_cast hc
    nlinarith
  · have hlt' : i' < i := Nat.lt_of_le_of_ne hge fun he => hne he.symm
    have hc : (i' + 1) * s ≤ i * s := Nat.mul_le_mul_right _ hlt'
    have hz : ((i' : ℤ) + 1) * s ≤ (i : ℤ) * s := by exact_mod_cast hc
    nlinarith

/-- Unpacked form of the left-walking loop result. -/
lemma shiftLeftLoop_full (corner : ℤ) (c : Coordinate) (step : ℕ) (hs : 0 < step) :
    ∃ k : ℕ, (shiftLeftLoop corner c step).1 = corner - k * step ∧
      (shiftLeftLoop corner c step).2 = ⟨c.row, c.column - k, c.zoom⟩ ∧
      corner - (k : ℤ) * step ≤ 0 := by
  obtain ⟨k, hk, hle⟩ := shiftLeftLoop_spec step hs corner.toNat corner le_rfl c
  exact ⟨k, by rw [hk], by rw [hk], hle⟩

/-- Unpacked form of the up-walking loop result. -/
lemma shiftUpLoop_full (corner : ℤ) (c : Coordinate) (step : ℕ) (hs : 0 < step) :
    ∃ k : ℕ, (shiftUpLoop corner c step).1 = corner - k * step ∧
      (shiftUpLoop corner c step).2 = ⟨c.row - k, c.column, c.zoom⟩ ∧
      corner - (k : ℤ) * step ≤ 0 := by
  obtain ⟨k, hk, hle⟩ := shiftUpLoop_spec step hs corner.toNat corner le_rfl c
  exact ⟨k, by rw [hk], by rw [hk], hle⟩

/-- Every pixel position at or right of a nonpositive anchor falls in
exactly one step cell of the grid anchored there. -/
lemma exists_grid_index (a p : ℤ) (s : ℕ) (hs : 0 < s) (ha : a ≤ p) :
    ∃ u : ℕ, a + (u : ℤ) * s ≤ p ∧ p < a + (u : ℤ) * s + s := by
  set d := (p - a).toNat with hd
  have hdz : (d : ℤ) = p - a := by omega
  refine ⟨d / s, ?_, ?_⟩
  · have h1 : d / s * s ≤ d := Nat.div_mul_le_self _ _
    have hc : ((d / s : ℕ) : ℤ) * (s : ℤ) ≤ (d : ℤ) := by exact_mod_cast h1
    linarith
  · have hml : d % s < s := Nat.mod_lt d hs
    have hdm : d / s * s + d % s = d := Nat.div_add_mod' d s
    have hc : ((d / s : ℕ) : ℤ) * s + ((d % s : ℕ) : ℤ) = (d : ℤ) := by exact_mod_cast hdm
    have hmlz : ((d % s : ℕ) : ℤ) < s := by exact_mod_cast hml
    linarith

/-- C3: with positive image dimensions and tile sizes, the destinations
of the tile requests produced by the render enumeration lie on one
uniform grid spaced `tile_width` apart horizontally and `tile_height`
apart vertically, and every pixel of `[0, W) x [0, H)` is covered by
exactly one tile's destination rectangle. -/
theorem tile_grid_uniform_cover (m : MapState) (W H : ℤ)
    (hsz : m.size = (W, H)) (hW : 0 < W) (hH : 0 < H)
    (htw : 0 < m.provider.tile_width) (hth : 0 < m.provider.tile_height) :
    (∀ t ∈ render_map_tiles m, ∀ t' ∈ render_map_tiles m,
      ((m.provider.tile_width : ℤ)) ∣ (t.destination.1 - t'.destination.1) ∧
      ((m.provider.tile_height : ℤ)) ∣ (t.destination.2 - t'.destination.2)) ∧
    (∀ px py : ℤ, 0 ≤ px → px < W → 0 ≤ py → py < H →
      ∃! t : TileRequest, t ∈ render_map_tiles m ∧
        t.destination.1 ≤ px ∧ px < t.destination.1 + m.provider.tile_width ∧
        t.destination.2 ≤ py ∧ py < t.destination.2 + m.provider.tile_height) := by
  obtain ⟨kx, hkx1, hkx2, hkxle⟩ :=
    shiftLeftLoop_full (pyInt (m.offset.x + (W : ℚ) / 2)) m.coordinate
      m.provider.tile_width htw
  obtain ⟨ky, hky1, hky2, hkyle⟩ :=
    shiftUpLoop_full (pyInt (m.offset.y + (H : ℚ) / 2))
      ⟨m.coordinate.row, m.coordinate.column - kx, m.coordinate.zoom⟩
      m.provider.tile_height hth
  set cx := pyInt (m.offset.x + (W : ℚ) / 2) - kx * m.provider.tile_width with hcxd
  set cy := pyInt (m.offset.y + (H : ℚ) / 2) - ky * m.provider.tile_height with hcyd
  have hrend : render_map_tiles m =
      gridTiles m.provider
        ⟨m.coordinate.row - ky, m.coordinate.column - kx, m.coordinate.zoom⟩
        (intRange cx W m.provider.tile_width) (intRange cy H m.provider.tile_height) := by
    simp only [render_map_tiles, hsz]
    rw [hkx1, hkx2, hky1, hky2]
  have hcxW : cx < W := lt_of_le_of_lt hkxle hW
  have hcyH : cy < H := lt_of_le_of_lt hkyle hH
  constructor
  · intro t ht t' ht'
    rw [hrend, mem_gridTiles] at ht ht'
    obtain ⟨j, hj, i, hi, rfl⟩ := ht
    obtain ⟨j', hj', i', hi', rfl⟩ := ht'
    dsimp only
    rw [intRange_getElem _ _ _ _ hi, intRange_getElem _ _ _ _ hi',
      intRange_getElem _ _ _ _ hj, intRange_getElem _ _ _ _ hj']
    exact ⟨⟨(i : ℤ) - i', by ring⟩, ⟨(j : ℤ) - j', by ring⟩⟩
  · intro px py hpx0 hpxW hpy0 hpyH
    obtain ⟨i, hi1, hi2⟩ :=
      exists_grid_index cx px m.provider.tile_width htw (le_trans hkxle hpx0)
    obtain ⟨j, hj1, hj2⟩ :=
      exists_grid_index cy py m.provider.tile_height hth (le_trans hkyle hpy0)
    have hilen : i < (intRange cx W m.provider.tile_width).length := by
      rw [lt_intRange_length_iff _ _ _ htw hcxW]
      linarith
    have hjlen : j < (intRange cy H m.provider.tile_height).length := by
      rw [lt_intRange_length_iff _ _ _ hth hcyH]
      linarith
    refine ⟨⟨m.provider,
      ⟨m.coordinate.row - ky + (j : ℚ), m.coordinate.column - kx + (i : ℚ),
        m.coordinate.zoom⟩,
      ((intRange cx W m.provider.tile_width)[i], (intRange cy H m.provider.tile_height)[j])⟩,
      ⟨?_, ?_, ?_, ?_, ?_⟩, ?_⟩
    · rw [hrend, mem_gridTiles]
      exact ⟨j, hjlen, i, hilen, rfl⟩
    · dsimp only
      rw [intRange_getElem _ _ _ _ hilen]
      exact hi1
    · dsimp only
      rw [intRange_getElem _ _ _ _ hilen]
      exact hi2
    · dsimp only
      rw [intRange_getElem _ _ _ _ hjlen]
      exact hj1
    · dsimp only
      rw [intRange_getElem _ _ _ _ hjlen]
      exact hj2
    · rintro t' ⟨ht'mem, hc1, hc2, hc3, hc4⟩
      rw [hrend, mem_gridTiles] at ht'mem
      obtain ⟨j', hj'len, i', hi'len, rfl⟩ := ht'mem
      dsimp only at hc1 hc2 hc3 hc4
      rw [intRange_getElem _ _ _ _ hi'len] at hc1 hc2
      rw [intRange_getElem _ _ _ _ hj'len] at hc3 hc4
      have hieq : i' = i := grid_index_unique cx m.provider.tile_width px i' i hc1 hc2 hi1 hi2
      have hjeq : j' = j := grid_index_unique cy m.provider.tile_height py j' j hc3 hc4 hj1 hj2
      subst hieq
      subst hjeq
      rfl

/-- C3 witness: on the demo map the pixel `(7, 9)` is covered by exactly
one tile request. -/
theorem tile_grid_uniform_cover_w :
    ∃! t : TileRequest, t ∈ render_map_tiles demoMap ∧
      t.destination.1 ≤ 7 ∧ (7 : ℤ) < t.destination.1 + demoMap.provider.tile_width ∧
      t.destination.2 ≤ 9 ∧ (9 : ℤ) < t.destination.2 + demoMap.provider.tile_height :=
  (tile_grid_uniform_cover demoMap 256 256 (by rw [demoMap_eval]) (by norm_num)
    (by norm_num) (by norm_num [demoMap_eval, idProvider])
    (by norm_num [demoMap_eval, idProvider])).2
    7 9 (by norm_num) (by norm_num) (by norm_num) (by norm_num)
